import Mathlib

/-!
Verification of the `File` type of `include_dir` (src/include_dir/src/file.rs).

The source is a single Rust module: a `File<'a>` value holds a relative
`path`, an embedded `contents` byte slice, an optional `metadata`
(feature `metadata`), and, in development builds (`debug_assertions`), a
root `prefix` string together with a process-wide
`FILES_CACHE : Mutex<HashMap<&str, &[u8]>>` that lazily memoizes disk
reads.

Embedding choices:
* bytes are `List Nat`; paths and strings are Lean `String`;
* the `HashMap` cache is an association list (`Cache`) with
  replace-or-append insert, mirroring `HashMap::insert`;
* the filesystem is a function `String → Option (List Nat)`
  (`none` = the read fails, which in Rust makes `unwrap` panic);
* `File::contents` in development mode is `contentsDev`, an explicit
  state-passing function returning the produced bytes (`none` = panic),
  the cache after the call, and the number of disk reads attempted; the
  mutex serializes every call, so a sequence of calls is modelled by
  threading the cache state;
* `std::path::MAIN_SEPARATOR` is an arbitrary `Char` parameter `sep`;
* the debug-mode struct field `prefix` is named `rootPre` here.
-/

/-- The process-wide `FILES_CACHE` table: `HashMap<&'static str, &'static [u8]>`
modelled as an association list from path to bytes. -/
abbrev Cache := List (String × List Nat)

/-- `HashMap::get` on the cache model. -/
def cacheGet : Cache → String → Option (List Nat)
  | [], _ => none
  | (k, v) :: rest, p => if k = p then some v else cacheGet rest p

/-- `HashMap::contains_key` on the cache model. -/
def cacheContainsKey (c : Cache) (p : String) : Bool :=
  (cacheGet c p).isSome

/-- `HashMap::insert` on the cache model: replace the binding if the key is
present, otherwise append a new binding. -/
def cacheInsert : Cache → String → List Nat → Cache
  | [], p, v => [(p, v)]
  | (k, w) :: rest, p, v =>
    if k = p then (p, v) :: rest else (k, w) :: cacheInsert rest p v

/-- Modelled from the spec: `crate::Metadata` (the crate's metadata module is
not part of the sources here). The spec describes it as "arbitrary descriptive
attributes (e.g. timestamps)" attached once and compared by equality, so it is
modelled as an opaque bundle of numeric attributes with structural equality. -/
structure Metadata where
  attrs : List Nat
deriving DecidableEq

/-- `File<'a>` from file.rs: `path`, `contents`, optional `metadata`
(feature `metadata`), and the development-mode root `prefix`
(field `rootPre` here). -/
structure File where
  path : String
  contents : List Nat
  metadata : Option Metadata
  rootPre : String
deriving DecidableEq

/-- The real on-disk path computed by `contents()` in development mode:
`self.prefix.to_string() + MAIN_SEPARATOR + self.path`. -/
def realPathOf (sep : Char) (f : File) : String :=
  f.rootPre ++ sep.toString ++ f.path

/-- Result of one development-mode `contents()` call: the returned bytes
(`none` = the call panics and returns nothing), the cache after the call,
and how many disk reads were attempted during the call. -/
structure ContentsOutcome where
  result : Option (List Nat)
  cache : Cache
  diskReads : Nat
deriving DecidableEq

/-- `File::contents` under `cfg(debug_assertions)`: lock the cache, and if the
path is not yet a key, read the file at `prefix + MAIN_SEPARATOR + path`
(panicking on failure) and insert the bytes under the path; finally return
`cache.get(path).unwrap()`. -/
def contentsDev (sep : Char) (fs : String → Option (List Nat)) (f : File)
    (c : Cache) : ContentsOutcome :=
  if cacheContainsKey c f.path then
    { result := cacheGet c f.path, cache := c, diskReads := 0 }
  else
    match fs (realPathOf sep f) with
    | none => { result := none, cache := c, diskReads := 1 }
    | some bytes =>
      let c' := cacheInsert c f.path bytes
      { result := cacheGet c' f.path, cache := c', diskReads := 1 }

/-- `File::contents` under `cfg(not(debug_assertions))`: the embedded bytes. -/
def contentsRelease (f : File) : List Nat :=
  f.contents

-- Basic cache lemmas

theorem cacheGet_insert_self (c : Cache) (p : String) (v : List Nat) :
    cacheGet (cacheInsert c p v) p = some v := by
  induction c with
  | nil => simp [cacheInsert, cacheGet]
  | cons kv rest ih =>
    obtain ⟨k, w⟩ := kv
    by_cases h : k = p
    · simp [cacheInsert, cacheGet, h]
    · simp [cacheInsert, cacheGet, h, ih]

theorem cacheGet_insert_ne (c : Cache) (p q : String) (v : List Nat)
    (h : p ≠ q) : cacheGet (cacheInsert c p v) q = cacheGet c q := by
  induction c with
  | nil => simp [cacheInsert, cacheGet, h]
  | cons kv rest ih =>
    obtain ⟨k, w⟩ := kv
    by_cases hk : k = p
    · subst hk
      simp [cacheInsert, cacheGet, h]
    · simp [cacheInsert, cacheGet, hk, ih]

theorem cacheContainsKey_false_iff (c : Cache) (p : String) :
    cacheContainsKey c p = false ↔ cacheGet c p = none := by
  unfold cacheContainsKey
  cases cacheGet c p <;> simp

theorem contentsDev_hit (sep : Char) (fs : String → Option (List Nat))
    (f : File) (c : Cache) (v : List Nat) (h : cacheGet c f.path = some v) :
    contentsDev sep fs f c = ⟨some v, c, 0⟩ := by
  unfold contentsDev
  rw [if_pos]
  · simp [h]
  · simp [cacheContainsKey, h]

theorem contentsDev_miss (sep : Char) (fs : String → Option (List Nat))
    (f : File) (c : Cache) (bytes : List Nat) (h : cacheGet c f.path = none)
    (hb : fs (realPathOf sep f) = some bytes) :
    contentsDev sep fs f c = ⟨some bytes, cacheInsert c f.path bytes, 1⟩ := by
  unfold contentsDev
  rw [if_neg]
  · rw [hb]
    simp [cacheGet_insert_self]
  · simp [cacheContainsKey, h]

theorem contentsDev_fail (sep : Char) (fs : String → Option (List Nat))
    (f : File) (c : Cache) (h : cacheGet c f.path = none)
    (hb : fs (realPathOf sep f) = none) :
    contentsDev sep fs f c = ⟨none, c, 1⟩ := by
  unfold contentsDev
  rw [if_neg]
  · rw [hb]
  · simp [cacheContainsKey, h]

theorem contentsDev_result_cached (sep : Char) (fs : String → Option (List Nat))
    (f : File) (c : Cache) (v : List Nat)
    (h : (contentsDev sep fs f c).result = some v) :
    cacheGet (contentsDev sep fs f c).cache f.path = some v := by
  cases hg : cacheGet c f.path with
  | some w =>
    rw [contentsDev_hit sep fs f c w hg] at h ⊢
    simp at h ⊢
    rw [hg, h]
  | none =>
    cases hb : fs (realPathOf sep f) with
    | none => rw [contentsDev_fail sep fs f c hg hb] at h; simp at h
    | some bytes =>
      rw [contentsDev_miss sep fs f c bytes hg hb] at h ⊢
      simp [cacheGet_insert_self] at h ⊢
      exact h

-- UTF-8 model for `std::str::from_utf8` (used by `File::contents_utf8`)

/-- A Unicode scalar value: what a Rust `char` can hold. -/
def ValidScalar (c : Nat) : Prop :=
  c < 0x110000 ∧ (c < 0xD800 ∨ 0xE000 ≤ c)

/-- Every element of the list is a Unicode scalar value. -/
def ValidScalars (s : List Nat) : Prop :=
  ∀ c ∈ s, ValidScalar c

/-- The UTF-8 encoding of one scalar value (1 to 4 bytes). -/
def utf8EncodeChar (c : Nat) : List Nat :=
  if c < 0x80 then [c]
  else if c < 0x800 then [0xC0 + c / 0x40, 0x80 + c % 0x40]
  else if c < 0x10000 then
    [0xE0 + c / 0x1000, 0x80 + c / 0x40 % 0x40, 0x80 + c % 0x40]
  else
    [0xF0 + c / 0x40000, 0x80 + c / 0x1000 % 0x40, 0x80 + c / 0x40 % 0x40,
      0x80 + c % 0x40]

/-- The UTF-8 encoding of a sequence of scalar values. -/
def utf8Encode : List Nat → List Nat
  | [] => []
  | c :: cs => utf8EncodeChar c ++ utf8Encode cs

/-- Decode one UTF-8 character from the front of a byte list, rejecting
exactly what `std::str::from_utf8` rejects: stray continuation bytes,
overlong forms (leads 0xC0/0xC1, 0xE0 with a low second byte, 0xF0 with a
low second byte), surrogates (0xED with a high second byte), and scalar
values above 0x10FFFF (leads above 0xF4, 0xF4 with a high second byte). -/
def decodeChar : List Nat → Option (Nat × List Nat)
  | [] => none
  | b0 :: tail =>
    if b0 < 0x80 then some (b0, tail)
    else
      match tail with
      | [] => none
      | b1 :: tail1 =>
        if 0xC2 ≤ b0 ∧ b0 < 0xE0 then
          if 0x80 ≤ b1 ∧ b1 < 0xC0 then
            some ((b0 - 0xC0) * 0x40 + (b1 - 0x80), tail1)
          else none
        else
          match tail1 with
          | [] => none
          | b2 :: tail2 =>
            if 0xE0 ≤ b0 ∧ b0 < 0xF0 then
              if (if b0 = 0xE0 then 0xA0 ≤ b1 ∧ b1 < 0xC0
                  else if b0 = 0xED then 0x80 ≤ b1 ∧ b1 < 0xA0
                  else 0x80 ≤ b1 ∧ b1 < 0xC0) ∧ 0x80 ≤ b2 ∧ b2 < 0xC0 then
                some ((b0 - 0xE0) * 0x1000 + (b1 - 0x80) * 0x40 + (b2 - 0x80),
                  tail2)
              else none
            else
              match tail2 with
              | [] => none
              | b3 :: tail3 =>
                if 0xF0 ≤ b0 ∧ b0 < 0xF5 then
                  if (if b0 = 0xF0 then 0x90 ≤ b1 ∧ b1 < 0xC0
                      else if b0 = 0xF4 then 0x80 ≤ b1 ∧ b1 < 0x90
                      else 0x80 ≤ b1 ∧ b1 < 0xC0) ∧
                      (0x80 ≤ b2 ∧ b2 < 0xC0) ∧ 0x80 ≤ b3 ∧ b3 < 0xC0 then
                    some ((b0 - 0xF0) * 0x40000 + (b1 - 0x80) * 0x1000 +
                      (b2 - 0x80) * 0x40 + (b3 - 0x80), tail3)
                  else none
                else none

/-- Fuel-indexed full decoder; one unit of fuel per decoded character. -/
def utf8DecodeAux : Nat → List Nat → Option (List Nat)
  | _, [] => some []
  | 0, _ :: _ => none
  | fuel + 1, b :: bs =>
    match decodeChar (b :: bs) with
    | none => none
    | some (c, rest) => (utf8DecodeAux fuel rest).map (fun cs => c :: cs)

/-- `std::str::from_utf8(bytes).ok()`: `some` of the decoded scalar values
when `bytes` is valid UTF-8, `none` otherwise. Each decoded character
consumes at least one byte, so `bytes.length` units of fuel suffice. -/
def utf8Decode? (bs : List Nat) : Option (List Nat) :=
  utf8DecodeAux bs.length bs

/-- `File::contents_utf8` under `cfg(debug_assertions)`:
`from_utf8(self.contents()).ok()`. The outer `Option` is `none` when
`contents()` itself panics; the inner `Option` is the `.ok()` result. -/
def contents_utf8Dev (sep : Char) (fs : String → Option (List Nat)) (f : File)
    (c : Cache) : Option (Option (List Nat)) × Cache :=
  let o := contentsDev sep fs f c
  (o.result.map utf8Decode?, o.cache)

/-- `File::contents_utf8` under `cfg(not(debug_assertions))`. -/
def contents_utf8Release (f : File) : Option (List Nat) :=
  utf8Decode? (contentsRelease f)

theorem utf8EncodeChar_one (c : Nat) (h : c < 0x80) :
    utf8EncodeChar c = [c] := by
  unfold utf8EncodeChar
  rw [if_pos h]

theorem utf8EncodeChar_two (c : Nat) (h1 : 0x80 ≤ c) (h2 : c < 0x800) :
    utf8EncodeChar c = [0xC0 + c / 0x40, 0x80 + c % 0x40] := by
  unfold utf8EncodeChar
  rw [if_neg (by omega), if_pos h2]

theorem utf8EncodeChar_three (c : Nat) (h1 : 0x800 ≤ c) (h2 : c < 0x10000) :
    utf8EncodeChar c =
      [0xE0 + c / 0x1000, 0x80 + c / 0x40 % 0x40, 0x80 + c % 0x40] := by
  unfold utf8EncodeChar
  rw [if_neg (by omega), if_neg (by omega), if_pos h2]

theorem utf8EncodeChar_four (c : Nat) (h1 : 0x10000 ≤ c) :
    utf8EncodeChar c =
      [0xF0 + c / 0x40000, 0x80 + c / 0x1000 % 0x40, 0x80 + c / 0x40 % 0x40,
        0x80 + c % 0x40] := by
  unfold utf8EncodeChar
  rw [if_neg (by omega), if_neg (by omega), if_neg (by omega)]

theorem decodeChar_sound (bs : List Nat) (c : Nat) (rest : List Nat)
    (h : decodeChar bs = some (c, rest)) :
    utf8EncodeChar c ++ rest = bs ∧ ValidScalar c := by
  rcases bs with _ | ⟨b0, _ | ⟨b1, _ | ⟨b2, _ | ⟨b3, tail3⟩⟩⟩⟩
  · simp [decodeChar] at h
  all_goals
    simp only [decodeChar] at h
    split_ifs at h <;>
      (simp only [Option.some.injEq, Prod.mk.injEq] at h
       obtain ⟨rfl, rfl⟩ := h
       refine ⟨?_, by unfold ValidScalar; omega⟩
       unfold utf8EncodeChar
       split_ifs <;>
         first
           | (exfalso; omega)
           | (simp only [List.cons_append, List.nil_append, List.cons.injEq,
                 and_true] <;> omega))

theorem decodeChar_complete (c : Nat) (rest : List Nat) (h : ValidScalar c) :
    decodeChar (utf8EncodeChar c ++ rest) = some (c, rest) := by
  unfold ValidScalar at h
  by_cases h1 : c < 0x80
  · rw [utf8EncodeChar_one _ h1]
    simp only [List.cons_append, List.nil_append, decodeChar]
    split_ifs <;> first | rfl | (exfalso; omega)
  · by_cases h2 : c < 0x800
    · rw [utf8EncodeChar_two _ (by omega) h2]
      simp only [List.cons_append, List.nil_append, decodeChar]
      split_ifs <;>
        first
          | (exfalso; omega)
          | (simp only [Option.some.injEq, Prod.mk.injEq, and_true] <;>
               omega)
    · by_cases h3 : c < 0x10000
      · rw [utf8EncodeChar_three _ (by omega) h3]
        simp only [List.cons_append, List.nil_append, decodeChar]
        split_ifs <;>
          first
            | (exfalso; omega)
            | (simp only [Option.some.injEq, Prod.mk.injEq, and_true] <;>
                 omega)
      · rw [utf8EncodeChar_four _ (by omega)]
        simp only [List.cons_append, List.nil_append, decodeChar]
        split_ifs <;>
          first
            | (exfalso; omega)
            | (simp only [Option.some.injEq, Prod.mk.injEq, and_true] <;>
                 omega)

theorem utf8DecodeAux_sound : ∀ (fuel : Nat) (bs out : List Nat),
    utf8DecodeAux fuel bs = some out → utf8Encode out = bs ∧ ValidScalars out := by
  intro fuel
  induction fuel with
  | zero =>
    intro bs out h
    cases bs with
    | nil =>
      simp only [utf8DecodeAux, Option.some.injEq] at h
      subst h
      exact ⟨rfl, by intro x hx; cases hx⟩
    | cons b bs => simp [utf8DecodeAux] at h
  | succ fuel ih =>
    intro bs out h
    cases bs with
    | nil =>
      simp only [utf8DecodeAux, Option.some.injEq] at h
      subst h
      exact ⟨rfl, by intro x hx; cases hx⟩
    | cons b bs =>
      simp only [utf8DecodeAux] at h
      split at h
      · simp at h
      · rename_i c rest hd
        rw [Option.map_eq_some'] at h
        obtain ⟨cs, haux, rfl⟩ := h
        obtain ⟨henc, hval⟩ := ih rest cs haux
        obtain ⟨hdec, hvc⟩ := decodeChar_sound _ _ _ hd
        constructor
        · show utf8EncodeChar c ++ utf8Encode cs = b :: bs
          rw [henc]
          exact hdec
        · intro x hx
          rcases List.mem_cons.mp hx with rfl | hx'
          · exact hvc
          · exact hval x hx'

theorem length_le_utf8Encode_length (s : List Nat) :
    s.length ≤ (utf8Encode s).length := by
  induction s with
  | nil => simp [utf8Encode]
  | cons c cs ih =>
    show cs.length + 1 ≤ (utf8EncodeChar c ++ utf8Encode cs).length
    rw [List.length_append]
    have h1 : 1 ≤ (utf8EncodeChar c).length := by
      unfold utf8EncodeChar
      split_ifs <;> simp
    omega

theorem utf8DecodeAux_complete : ∀ (s : List Nat) (fuel : Nat),
    ValidScalars s → s.length ≤ fuel →
    utf8DecodeAux fuel (utf8Encode s) = some s := by
  intro s
  induction s with
  | nil =>
    intro fuel _ _
    cases fuel <;> simp [utf8Encode, utf8DecodeAux]
  | cons c cs ih =>
    intro fuel hval hlen
    obtain ⟨fuel, rfl⟩ : ∃ m, fuel = m + 1 := by
      cases fuel with
      | zero => simp at hlen
      | succ m => exact ⟨m, rfl⟩
    have hdc : decodeChar (utf8EncodeChar c ++ utf8Encode cs) =
        some (c, utf8Encode cs) :=
      decodeChar_complete c _ (hval c (by simp))
    obtain ⟨b0, tl, hb⟩ : ∃ b0 tl, utf8EncodeChar c = b0 :: tl := by
      cases he : utf8EncodeChar c with
      | nil =>
        exfalso
        unfold utf8EncodeChar at he
        split_ifs at he <;> simp at he
      | cons x xs => exact ⟨x, xs, rfl⟩
    have hstep : utf8Encode (c :: cs) = b0 :: (tl ++ utf8Encode cs) := by
      show utf8EncodeChar c ++ utf8Encode cs = b0 :: (tl ++ utf8Encode cs)
      rw [hb, List.cons_append]
    rw [hstep]
    simp only [utf8DecodeAux]
    rw [← List.cons_append, ← hb, hdc]
    show Option.map (fun l => c :: l) (utf8DecodeAux fuel (utf8Encode cs)) =
      some (c :: cs)
    rw [ih fuel (fun x hx => hval x (by simp [hx])) (by simp at hlen; omega)]
    rfl

theorem utf8Decode?_sound (bs out : List Nat) (h : utf8Decode? bs = some out) :
    utf8Encode out = bs ∧ ValidScalars out :=
  utf8DecodeAux_sound _ _ _ h

theorem utf8Decode?_complete (s : List Nat) (h : ValidScalars s) :
    utf8Decode? (utf8Encode s) = some s :=
  utf8DecodeAux_complete s _ h (length_le_utf8Encode_length s)

-- Metadata, debug rendering, repeated calls

/-- `File::with_metadata` (feature `metadata`): consumes the value and builds
a new one with the same `path`, `contents` and (in development mode) `prefix`,
and with `metadata` set to `Some(metadata)`. -/
def with_metadata (f : File) (m : Metadata) : File :=
  { path := f.path, contents := f.contents, metadata := some m,
    rootPre := f.rootPre }

/-- `File::metadata` (feature `metadata`): `self.metadata.as_ref()`, i.e. the
attached metadata if any. -/
def metadataOf (f : File) : Option Metadata :=
  f.metadata

/-- Rust `Debug` rendering of a string value: quoted (character escaping
inside the quotes is elided by the model). -/
def quoteStr (s : String) : String :=
  "\x22" ++ s ++ "\x22"

/-- Rust `Debug` rendering of the `Option<Metadata>` field. -/
def fmtMetadata : Option Metadata → String
  | none => "None"
  | some m => "Some(Metadata(" ++ toString m.attrs ++ "))"

/-- The part of the `Debug` output printed before the content length:
depends only on the path. -/
def debugPre (f : File) : String :=
  "File \x7b path: " ++ quoteStr f.path ++ ", contents: " ++ "\x22" ++ "<"

/-- The part of the `Debug` output printed after the content length:
depends only on the metadata and the prefix. -/
def debugPost (f : File) : String :=
  " bytes>" ++ "\x22" ++ ", metadata: " ++ fmtMetadata f.metadata ++
    ", prefix: " ++ quoteStr f.rootPre ++ " \x7d"

/-- `impl Debug for File`: `debug_struct("File")` naming the path, the
placeholder `"<N bytes>"` built by `format!("<{} bytes>", contents.len())`
(never the bytes themselves), the metadata (feature `metadata`) and the
prefix (development mode). -/
def debugFmt (f : File) : String :=
  "File \x7b path: " ++ quoteStr f.path ++ ", contents: " ++
    quoteStr ("<" ++ toString f.contents.length ++ " bytes>") ++
    ", metadata: " ++ fmtMetadata f.metadata ++ ", prefix: " ++
    quoteStr f.rootPre ++ " \x7d"

theorem debugFmt_decomp (f : File) :
    debugFmt f = debugPre f ++ toString f.contents.length ++ debugPost f := by
  unfold debugFmt debugPre debugPost quoteStr
  simp only [String.append_assoc]

/-- `n` successive `contents()` calls on the same `File` value. The cache
mutex makes each call's check-then-read-then-insert sequence atomic, so `n`
concurrent calls execute as `n` sequential calls in some order; this runs
them in that order, collecting each call's result, the final cache, and the
total number of disk reads. -/
def runContentsN (sep : Char) (fs : String → Option (List Nat)) (f : File) :
    Nat → Cache → List (Option (List Nat)) × Cache × Nat
  | 0, c => ([], c, 0)
  | n + 1, c =>
    let o := contentsDev sep fs f c
    let r := runContentsN sep fs f n o.cache
    (o.result :: r.1, r.2.1, o.diskReads + r.2.2)

theorem runContentsN_hit (sep : Char) (fs : String → Option (List Nat))
    (f : File) (n : Nat) (c : Cache) (v : List Nat)
    (h : cacheGet c f.path = some v) :
    runContentsN sep fs f n c = (List.replicate n (some v), c, 0) := by
  induction n with
  | zero => simp [runContentsN]
  | succ n ih =>
    simp only [runContentsN]
    rw [contentsDev_hit sep fs f c v h]
    simp [ih, List.replicate_succ]

-- Claim theorems

/-- C1: In development mode, `contents()` on a path already in the cache
returns the stored bytes with no disk read and no cache change; on an
uncached path it reads the whole file at `root prefix ++ separator ++
relative path`, inserts the bytes under the path, and returns them. -/
theorem contents_dev_correct (sep : Char) (fs : String → Option (List Nat))
    (f : File) (c : Cache) :
    (∀ v, cacheGet c f.path = some v →
      contentsDev sep fs f c = ⟨some v, c, 0⟩) ∧
    (cacheGet c f.path = none →
      ∀ bytes, fs (f.rootPre ++ sep.toString ++ f.path) = some bytes →
        contentsDev sep fs f c =
          ⟨some bytes, cacheInsert c f.path bytes, 1⟩) := by
  constructor
  · intro v hv
    exact contentsDev_hit sep fs f c v hv
  · intro hn bytes hb
    exact contentsDev_miss sep fs f c bytes hn hb

theorem contents_dev_correct_witness :
    (cacheGet ([] : Cache) "p" = none ∧
      (fun q => if q = "r" ++ Char.toString '/' ++ "p" then some [7] else none)
        ("r" ++ Char.toString '/' ++ "p") = some [7]) ∧
    contentsDev '/'
        (fun q => if q = "r" ++ Char.toString '/' ++ "p" then some [7]
          else none)
        (File.mk "p" [] none "r") [] =
      ⟨some [7], cacheInsert [] "p" [7], 1⟩ :=
  ⟨⟨by decide, by decide⟩,
    (contents_dev_correct '/'
        (fun q => if q = "r" ++ Char.toString '/' ++ "p" then some [7]
          else none)
        (File.mk "p" [] none "r") []).2 (by decide) [7] (by decide)⟩

/-- C2: once a `contents()` call has succeeded with some bytes, every later
`contents()` call on the same file in the same process returns exactly those
bytes, even if the on-disk file (the `fs` function) has changed meanwhile. -/
theorem contents_deterministic (sep : Char)
    (fs fs' : String → Option (List Nat)) (f : File) (c : Cache)
    (v : List Nat) (h : (contentsDev sep fs f c).result = some v) :
    (contentsDev sep fs' f (contentsDev sep fs f c).cache).result = some v := by
  have hc := contentsDev_result_cached sep fs f c v h
  rw [contentsDev_hit sep fs' f _ v hc]

theorem contents_deterministic_witness :
    (contentsDev '/' (fun _ => none) (File.mk "p" [] none "r")
        [("p", [5])]).result = some [5] ∧
    (contentsDev '/' (fun _ => some [9]) (File.mk "p" [] none "r")
        (contentsDev '/' (fun _ => none) (File.mk "p" [] none "r")
          [("p", [5])]).cache).result = some [5] :=
  ⟨by decide,
    contents_deterministic '/' (fun _ => none) (fun _ => some [9])
      (File.mk "p" [] none "r") [("p", [5])] [5] (by decide)⟩

/-- C3: the cache is append-only: a `contents()` call never removes a cache
entry and never changes the bytes stored under any existing key. -/
theorem cache_append_only (sep : Char) (fs : String → Option (List Nat))
    (f : File) (c : Cache) (k : String) (v : List Nat)
    (h : cacheGet c k = some v) :
    cacheGet (contentsDev sep fs f c).cache k = some v := by
  cases hg : cacheGet c f.path with
  | some w =>
    rw [contentsDev_hit sep fs f c w hg]
    exact h
  | none =>
    cases hb : fs (realPathOf sep f) with
    | none =>
      rw [contentsDev_fail sep fs f c hg hb]
      exact h
    | some bytes =>
      rw [contentsDev_miss sep fs f c bytes hg hb]
      show cacheGet (cacheInsert c f.path bytes) k = some v
      have hk : f.path ≠ k := by
        intro he
        rw [he] at hg
        rw [hg] at h
        exact Option.noConfusion h
      rw [cacheGet_insert_ne c f.path k bytes hk]
      exact h

theorem cache_append_only_witness :
    cacheGet ([("q", [1])] : Cache) "q" = some [1] ∧
    cacheGet (contentsDev '/' (fun _ => some [2]) (File.mk "p" [] none "r")
        [("q", [1])]).cache "q" = some [1] :=
  ⟨by decide,
    cache_append_only '/' (fun _ => some [2]) (File.mk "p" [] none "r")
      [("q", [1])] "q" [1] (by decide)⟩

/-- C4: in development mode, when the path is uncached and the disk read
fails, `contents()` returns no bytes at all (in particular not empty bytes),
attempts exactly one read (no retry), and leaves the cache unchanged. -/
theorem contents_read_failure (sep : Char) (fs : String → Option (List Nat))
    (f : File) (c : Cache)
    (hmiss : cacheContainsKey c f.path = false)
    (hfail : fs (f.rootPre ++ sep.toString ++ f.path) = none) :
    (contentsDev sep fs f c).result = none ∧
    (contentsDev sep fs f c).cache = c ∧
    (contentsDev sep fs f c).diskReads = 1 := by
  have hg : cacheGet c f.path = none :=
    (cacheContainsKey_false_iff c f.path).mp hmiss
  rw [contentsDev_fail sep fs f c hg hfail]
  exact ⟨rfl, rfl, rfl⟩

theorem contents_read_failure_witness :
    (cacheContainsKey ([] : Cache) "p" = false ∧
      (fun _ : String => (none : Option (List Nat)))
        ("r" ++ Char.toString '/' ++ "p") = none) ∧
    ((contentsDev '/' (fun _ => none) (File.mk "p" [] none "r") []).result =
        none ∧
      (contentsDev '/' (fun _ => none) (File.mk "p" [] none "r") []).cache =
        [] ∧
      (contentsDev '/' (fun _ => none) (File.mk "p" [] none "r")
        []).diskReads = 1) :=
  ⟨⟨by decide, by decide⟩,
    contents_read_failure '/' (fun _ => none) (File.mk "p" [] none "r") []
      (by decide) (by decide)⟩

/-- C5: `contents_utf8()` applies `from_utf8(..).ok()` to the bytes resolved
by `contents()`: it yields the exact decoding (a scalar sequence whose UTF-8
encoding is precisely those bytes) when they are valid UTF-8, and yields no
value, rather than failing, when no valid decoding exists. -/
theorem contents_utf8_exact (sep : Char) (fs : String → Option (List Nat))
    (f : File) (c : Cache) (bytes : List Nat)
    (h : (contentsDev sep fs f c).result = some bytes) :
    (contents_utf8Dev sep fs f c).1 = some (utf8Decode? bytes) ∧
    (∀ s, utf8Decode? bytes = some s →
      utf8Encode s = bytes ∧ ValidScalars s) ∧
    (∀ s, ValidScalars s → utf8Encode s = bytes →
      utf8Decode? bytes = some s) ∧
    ((¬ ∃ s, ValidScalars s ∧ utf8Encode s = bytes) →
      utf8Decode? bytes = none) := by
  refine ⟨?_, ?_, ?_, ?_⟩
  · simp [contents_utf8Dev, h]
  · intro s hs
    exact utf8Decode?_sound bytes s hs
  · intro s hv he
    rw [← he]
    exact utf8Decode?_complete s hv
  · intro hne
    cases hd : utf8Decode? bytes with
    | none => rfl
    | some s =>
      obtain ⟨he, hv⟩ := utf8Decode?_sound bytes s hd
      exact absurd ⟨s, hv, he⟩ hne

theorem contents_utf8_exact_witness :
    (contentsDev '/' (fun _ => none) (File.mk "p" [] none "r")
        [("p", [104, 105])]).result = some [104, 105] ∧
    ((contents_utf8Dev '/' (fun _ => none) (File.mk "p" [] none "r")
        [("p", [104, 105])]).1 = some (utf8Decode? [104, 105]) ∧
      (∀ s, utf8Decode? [104, 105] = some s →
        utf8Encode s = [104, 105] ∧ ValidScalars s) ∧
      (∀ s, ValidScalars s → utf8Encode s = [104, 105] →
        utf8Decode? [104, 105] = some s) ∧
      ((¬ ∃ s, ValidScalars s ∧ utf8Encode s = [104, 105]) →
        utf8Decode? [104, 105] = none)) :=
  ⟨by decide,
    contents_utf8_exact '/' (fun _ => none) (File.mk "p" [] none "r")
      [("p", [104, 105])] [104, 105] (by decide)⟩

/-- C6 (counterexample): two development-mode `File` values with the same
path, the same resolved contents and the same metadata are nevertheless
unequal, because the derived equality also compares the stored `contents`
field (a build-time placeholder in development mode). -/
theorem file_eq_counterexample :
    (File.mk "p" [0] none "r").path = (File.mk "p" [1] none "r").path ∧
    (contentsDev '/' (fun _ => none) (File.mk "p" [0] none "r")
        [("p", [7])]).result =
      (contentsDev '/' (fun _ => none) (File.mk "p" [1] none "r")
        [("p", [7])]).result ∧
    (File.mk "p" [0] none "r").metadata = (File.mk "p" [1] none "r").metadata ∧
    File.mk "p" [0] none "r" ≠ File.mk "p" [1] none "r" := by
  refine ⟨rfl, by decide, rfl, by decide⟩

/-- C6 (amended): the derived equality on `File` compares every stored
field: two values are equal iff their paths, stored `contents` fields,
metadata, and (in development mode) root prefixes are all equal. -/
theorem file_eq_iff (a b : File) :
    a = b ↔ (a.path = b.path ∧ a.contents = b.contents ∧
      a.metadata = b.metadata ∧ a.rootPre = b.rootPre) := by
  cases a
  cases b
  simp [File.mk.injEq]

/-- C7: `with_metadata` consumes the value and produces a new `File` with
the same path, the same stored contents, the same root prefix, and with
`metadata()` afterwards returning exactly the supplied metadata; the
original value is not mutated (values are immutable here, so a pre-existing
view of the original is the unchanged original). -/
theorem with_metadata_correct (f : File) (m : Metadata) :
    (with_metadata f m).path = f.path ∧
    (with_metadata f m).contents = f.contents ∧
    (with_metadata f m).rootPre = f.rootPre ∧
    metadataOf (with_metadata f m) = some m :=
  ⟨rfl, rfl, rfl, rfl⟩

/-- C8: the debug rendering names the path, the stored content length
(also when it is 0), the metadata and the root prefix, and depends on the
contents only through their length, so raw content bytes never appear. -/
theorem debug_names_fields (f : File) :
    debugFmt f = debugPre f ++ toString f.contents.length ++ debugPost f ∧
    (∀ g : File, f.path = g.path → f.contents.length = g.contents.length →
      f.metadata = g.metadata → f.rootPre = g.rootPre →
      debugFmt f = debugFmt g) := by
  refine ⟨debugFmt_decomp f, ?_⟩
  intro g hp hl hm hr
  unfold debugFmt
  rw [hp, hl, hm, hr]

theorem debug_names_fields_witness :
    debugFmt (File.mk "a" [0] none "r") = debugFmt (File.mk "a" [1] none "r") :=
  (debug_names_fields (File.mk "a" [0] none "r")).2 (File.mk "a" [1] none "r")
    rfl rfl rfl rfl

/-- C9: with the lock held across the whole check-then-read-then-insert
sequence, `n ≥ 1` serialized `contents()` calls on a not-yet-cached path
perform exactly one disk read in total and all return the same bytes. -/
theorem concurrent_single_read (sep : Char) (fs : String → Option (List Nat))
    (f : File) (c : Cache) (bytes : List Nat) (n : Nat)
    (hmiss : cacheContainsKey c f.path = false)
    (hb : fs (f.rootPre ++ sep.toString ++ f.path) = some bytes)
    (hn : 0 < n) :
    (runContentsN sep fs f n c).1 = List.replicate n (some bytes) ∧
    (runContentsN sep fs f n c).2.2 = 1 := by
  obtain ⟨m, rfl⟩ : ∃ m, n = m + 1 := ⟨n - 1, by omega⟩
  have hg : cacheGet c f.path = none :=
    (cacheContainsKey_false_iff c f.path).mp hmiss
  simp only [runContentsN]
  rw [contentsDev_miss sep fs f c bytes hg hb]
  rw [runContentsN_hit sep fs f m _ bytes (cacheGet_insert_self c f.path bytes)]
  constructor
  · simp [List.replicate_succ]
  · simp

theorem concurrent_single_read_witness :
    (cacheContainsKey ([] : Cache) "p" = false ∧
      (fun _ : String => some [7]) ("r" ++ Char.toString '/' ++ "p") =
        some [7] ∧ 0 < 3) ∧
    ((runContentsN '/' (fun _ => some [7]) (File.mk "p" [] none "r") 3 []).1 =
        List.replicate 3 (some [7]) ∧
      (runContentsN '/' (fun _ => some [7]) (File.mk "p" [] none "r") 3
        []).2.2 = 1) :=
  ⟨⟨by decide, by decide, by decide⟩,
    concurrent_single_read '/' (fun _ => some [7]) (File.mk "p" [] none "r")
      [] [7] 3 (by decide) (by decide) (by decide)⟩

/-- C10: the debug rendering is a pure function of the stored fields: it
prints the length of the stored `contents` field without resolving the
contents, and that stored length can differ from the length of the bytes a
development-mode `contents()` call resolves from the cache. -/
theorem debug_no_resolution :
    (∀ f : File, debugFmt f =
      debugPre f ++ toString f.contents.length ++ debugPost f) ∧
    (∃ (f : File) (c : Cache) (v : List Nat),
      (contentsDev '/' (fun _ => none) f c).result = some v ∧
      (contentsDev '/' (fun _ => none) f c).cache = c ∧
      v.length ≠ f.contents.length) := by
  refine ⟨fun f => debugFmt_decomp f, ?_⟩
  refine ⟨File.mk "p" [] none "r", [("p", [1, 2, 3])], [1, 2, 3], ?_, ?_, ?_⟩
  · decide
  · decide
  · decide
